import Mathlib

/-!
Verification development for the credential-derived key-management and
per-record authenticated-encryption subsystem of the jarida journal store
(`src/security.rs`, `src/common.rs`, `src/uuid.rs`).

Byte buffers (`Vec<u8>`) are modelled as `List Nat`; machine integers
(`u128` nonce and `Uuid` values) are modelled as `Nat` with explicit
`% 2 ^ 128` reductions at the little-endian encode/decode boundary, exactly
where the Rust code fixes the width.

The external `ring` crate primitives (AES-256-GCM seal/open and
PBKDF2-HMAC-SHA512 derivation) are not code of this repository; they are
modelled as an abstract `RingModel` bundling the documented functional
contract of those primitives (ciphertext length, round-trip decryption,
authentication of associated data, output length of the KDF).  Every
function of the repository itself (`seal_in_place`, `open_in_place`,
`CredentialGuard`, `DataGuard`, the verification protocol in `common.rs`)
is translated from the source over an arbitrary such model.
-/

/-- A byte buffer (`Vec<u8>` / `&[u8]`). -/
abbrev Bytes := List Nat

/-- `Nonce::len()` in `security.rs`: `size_of::<u128>()` = 16. -/
def Nonce.len : Nat := 16

/-- Little-endian encoding of a natural into `k` bytes (`u128::to_le_bytes`
truncated to width `k`). -/
def natToLeBytes : Nat → Nat → Bytes
  | 0, _ => []
  | k + 1, n => n % 256 :: natToLeBytes k (n / 256)

/-- Little-endian decoding of a byte buffer into a natural
(`u128::from_le_bytes`). -/
def leBytesToNat : Bytes → Nat
  | [] => 0
  | b :: bs => b + 256 * leBytesToNat bs

/-- `Nonce::to_le_bytes` in `security.rs`: the 16-byte little-endian
encoding of the `u128` nonce value. -/
def Nonce.to_le_bytes (n : Nat) : Bytes := natToLeBytes 16 n

/-- `Nonce::from_le_bytes` in `security.rs`. -/
def Nonce.from_le_bytes (b : Bytes) : Nat := leBytesToNat b

/-- `Uuid::to_bytes` in `uuid.rs`: the 16-byte little-endian encoding of
the `u128` identifier. -/
def Uuid.to_bytes (u : Nat) : Bytes := natToLeBytes 16 u

/-- Functional contract of the external `ring` crate primitives used by
`security.rs`: AES-256-GCM `seal_in_place_append_tag` / `open_in_place`
(arguments: key, 96-bit nonce, associated data, buffer) and
`pbkdf2::derive` with `PBKDF2_HMAC_SHA512` (arguments: iteration count,
salt, secret, output length).  The proof fields state the documented
behaviour of these primitives: sealing appends a 16-byte tag; opening a
sealed buffer with the same key, nonce and associated data returns the
plaintext; opening under different associated data fails (ideal
authenticity); a successful open returns the input minus the tag; the KDF
fills exactly the requested output buffer. -/
structure RingModel where
  gcm_seal : Bytes → Nat → Bytes → Bytes → Bytes
  gcm_open : Bytes → Nat → Bytes → Bytes → Option Bytes
  pbkdf2_hmac_sha512 : Nat → Bytes → Bytes → Nat → Bytes
  seal_length : ∀ k n aad pt, (gcm_seal k n aad pt).length = pt.length + 16
  aopen_seal : ∀ k n aad pt, gcm_open k n aad (gcm_seal k n aad pt) = some pt
  aopen_aad_ne : ∀ k n aad aad' pt, aad ≠ aad' →
    gcm_open k n aad (gcm_seal k n aad' pt) = none
  aopen_length : ∀ k n aad ct pt, gcm_open k n aad ct = some pt →
    pt.length + 16 = ct.length
  pbkdf2_length : ∀ c s p l, (pbkdf2_hmac_sha512 c s p l).length = l

/-- `derive_key_from_credentials` in `security.rs`: salt is the database
salt concatenated with the username bytes; the key is 100000 iterations of
PBKDF2-HMAC-SHA512 over the password, filled into a 32-byte buffer. -/
def derive_key_from_credentials (M : RingModel) (db_salt username password : Bytes) : Bytes :=
  M.pbkdf2_hmac_sha512 100000 (db_salt ++ username) password 32

/-- `unbound_key` in `security.rs`: `aead::UnboundKey::new(&AES_256_GCM, key)`
succeeds exactly when the key has the 32-byte length of the algorithm. -/
def unbound_key (key : Bytes) : Option Bytes :=
  if key.length = 32 then some key else none

/-- Free function `seal_in_place` in `security.rs`.  The randomly drawn
nonce is injected as an argument; `Nonce::advance` passes the low 12 bytes
(96 bits) of the nonce value to the AEAD. -/
def security.seal_in_place (M : RingModel) (key : Bytes) (aad : Bytes) (nonce : Nat)
    (plaintext : Bytes) : Option (Nat × Bytes) :=
  match unbound_key key with
  | none => none
  | some k => some (nonce, M.gcm_seal k (nonce % 2 ^ 96) aad plaintext)

/-- Free function `open_in_place` in `security.rs`: decrypt with the low
96 bits of the nonce value; both a wrong-length key and an authentication
failure collapse to `UnspecifiedError` (here `none`). -/
def security.open_in_place (M : RingModel) (key : Bytes) (aad : Bytes) (nonce : Nat)
    (ciphertext : Bytes) : Option Bytes :=
  match unbound_key key with
  | none => none
  | some k => M.gcm_open k (nonce % 2 ^ 96) aad ciphertext

/-- `CredentialGuard` in `security.rs`. -/
structure CredentialGuard where
  salt : Bytes
  credential_key : Bytes
deriving DecidableEq, Repr

/-- `DataGuard` in `security.rs`. -/
structure DataGuard where
  guard : CredentialGuard
  key : Bytes
deriving DecidableEq, Repr

/-- `CredentialGuard::new` in `security.rs`. -/
def CredentialGuard.new (M : RingModel) (salt : Bytes) (username password : Bytes) :
    CredentialGuard :=
  { salt := salt, credential_key := derive_key_from_credentials M salt username password }

/-- `CredentialGuard::update_credentials` in `security.rs`: recompute the
credential key from the stored salt and fresh credentials. -/
def CredentialGuard.update_credentials (M : RingModel) (g : CredentialGuard)
    (username password : Bytes) : CredentialGuard :=
  { g with credential_key := derive_key_from_credentials M g.salt username password }

/-- Outcome of `CredentialGuard::try_decrypt_key`.  `panic` marks the
executions in which the Rust code panics: the subtraction
`encrypted_key.len() - Nonce::len()` underflows for inputs shorter than 16
bytes, and `key.try_into().unwrap()` fails when the decrypted key is not
32 bytes. -/
inductive DecryptResult
  | panic
  | failure (g : CredentialGuard)
  | success (g : DataGuard)
deriving DecidableEq, Repr

/-- `CredentialGuard::try_decrypt_key` in `security.rs`: split the trailing
16-byte nonce off the wrapped key, open the body with empty associated
data; on success build a `DataGuard` from the decrypted 32-byte key, on
failure return the guard itself unchanged. -/
def CredentialGuard.try_decrypt_key (M : RingModel) (g : CredentialGuard)
    (encrypted_key : Bytes) : DecryptResult :=
  if encrypted_key.length < Nonce.len then .panic
  else
    match security.open_in_place M g.credential_key []
        (Nonce.from_le_bytes (encrypted_key.drop (encrypted_key.length - Nonce.len)))
        (encrypted_key.take (encrypted_key.length - Nonce.len)) with
    | some key => if key.length = 32 then .success ⟨g, key⟩ else .panic
    | none => .failure g

/-- `CredentialGuard::generate_encrypted_key` in `security.rs`: seal the
(injected) freshly drawn 32-byte data key under the credential key with
empty associated data and append the little-endian bytes of the nonce. -/
def CredentialGuard.generate_encrypted_key (M : RingModel) (g : CredentialGuard)
    (data_key : Bytes) (nonce : Nat) : Option Bytes :=
  match security.seal_in_place M g.credential_key [] nonce data_key with
  | none => none
  | some p => some (p.2 ++ Nonce.to_le_bytes p.1)

/-- `DataGuard::seal_in_place` in `security.rs`: seal under the data key
with the bytes of the record `Uuid` as associated data and append the nonce. -/
def DataGuard.seal_in_place (M : RingModel) (g : DataGuard) (uuid : Nat)
    (nonce : Nat) (plaintext : Bytes) : Option Bytes :=
  match security.seal_in_place M g.key (Uuid.to_bytes uuid) nonce plaintext with
  | none => none
  | some p => some (p.2 ++ Nonce.to_le_bytes p.1)

/-- Outcome of `DataGuard::open_in_place`.  `panic` marks the executions in
which the Rust code panics: `ciphertext.len() - Nonce::len()` underflows
for inputs shorter than 16 bytes.  `err` is `UnspecifiedError`. -/
inductive OpenResult
  | panic
  | err
  | ok (plaintext : Bytes)
deriving DecidableEq, Repr

/-- `DataGuard::open_in_place` in `security.rs`: split the trailing
16-byte nonce off the sealed bytes and open the body with the record
bytes of the record `Uuid` as associated data. -/
def DataGuard.open_in_place (M : RingModel) (g : DataGuard) (uuid : Nat)
    (ciphertext : Bytes) : OpenResult :=
  if ciphertext.length < Nonce.len then .panic
  else
    match security.open_in_place M g.key (Uuid.to_bytes uuid)
        (Nonce.from_le_bytes (ciphertext.drop (ciphertext.length - Nonce.len)))
        (ciphertext.take (ciphertext.length - Nonce.len)) with
    | some pt => .ok pt
    | none => .err

/-- Outcome of the credential-validation loop of
`get_and_validate_credentials` in `common.rs`: a `DataGuard` on success, a
fatal invalid-credentials error when all bounded attempts fail, or a panic
propagated from `try_decrypt_key`. -/
inductive ValidateResult
  | panic
  | ok (g : DataGuard)
  | failed
deriving DecidableEq, Repr

/-- Body of the `for i in 0..3` validation loop of
`get_and_validate_credentials` (`common.rs`, lines 160-179), with the
interactive re-prompts injected as the stream `prompts` of
(username, password) pairs.  `i` is the loop index; `fuel` is the number of
remaining iterations (3 - i at every call).  The second component of the
result counts the `try_decrypt_key` attempts performed.  On a failed
attempt with `i != 2`, the user is re-prompted and `update_credentials` is
called before the next attempt, exactly as in the source. -/
def validateFuel (M : RingModel) (encrypted_key : Bytes) (prompts : Nat → Bytes × Bytes) :
    CredentialGuard → Nat → Nat → ValidateResult × Nat
  | _, _, 0 => (.failed, 0)
  | g, i, fuel + 1 =>
    match CredentialGuard.try_decrypt_key M g encrypted_key with
    | .success dg => (.ok dg, 1)
    | .panic => (.panic, 1)
    | .failure g' =>
      if i ≠ 2 then
        let g'' := CredentialGuard.update_credentials M g' (prompts i).1 (prompts i).2
        let r := validateFuel M encrypted_key prompts g'' (i + 1) fuel
        (r.1, r.2 + 1)
      else (.failed, 1)

/-- The credential-validation loop of `get_and_validate_credentials`
started at index 0 with its three allowed iterations. -/
def get_and_validate_loop (M : RingModel) (encrypted_key : Bytes)
    (prompts : Nat → Bytes × Bytes) (g : CredentialGuard) : ValidateResult × Nat :=
  validateFuel M encrypted_key prompts g 0 3

/-- Observable effects of the key-provisioning slice of
`get_and_validate_credentials` (`common.rs`, lines 113 and 151-158). -/
structure ProvisionOutcome where
  encrypted_key : Bytes
  generated : Bool
  written : Option Bytes
deriving DecidableEq, Repr

/-- Key-provisioning slice of `get_and_validate_credentials`
(`common.rs`): `encrypted_key` is `db.get_key()?.unwrap_or_default()`;
when it is empty, `generate_encrypted_key` is called (with the injected
fresh random `data_key` and nonce) and `db.update_key` persists the result
(`written`); otherwise the stored bytes are used untouched.  `none` models
the propagated "Could not generate database key" error. -/
def provision_key (M : RingModel) (stored : Option Bytes) (g : CredentialGuard)
    (data_key : Bytes) (nonce : Nat) : Option ProvisionOutcome :=
  if (stored.getD []).isEmpty then
    match CredentialGuard.generate_encrypted_key M g data_key nonce with
    | none => none
    | some ek => some ⟨ek, true, some ek⟩
  else some ⟨stored.getD [], false, none⟩

/-! ### Helper lemmas about the little-endian encoding and buffer splits -/

theorem length_natToLeBytes (k n : Nat) : (natToLeBytes k n).length = k := by
  induction k generalizing n with
  | zero => simp [natToLeBytes]
  | succ k ih => simp [natToLeBytes, ih]

theorem leBytesToNat_natToLeBytes (k n : Nat) :
    leBytesToNat (natToLeBytes k n) = n % 256 ^ k := by
  induction k generalizing n with
  | zero => simp [natToLeBytes, leBytesToNat, Nat.mod_one]
  | succ k ih =>
    simp only [natToLeBytes, leBytesToNat, ih]
    have h1 : n % 256 ^ (k + 1) % 256 = n % 256 := by
      rw [Nat.mod_mod_of_dvd n (dvd_pow_self 256 (Nat.succ_ne_zero k))]
    have h2 : n % 256 ^ (k + 1) / 256 = n / 256 % 256 ^ k := by
      rw [pow_succ']
      exact Nat.mod_mul_right_div_self n 256 (256 ^ k)
    have h3 := Nat.div_add_mod (n % 256 ^ (k + 1)) 256
    omega

theorem length_nonce_to_le_bytes (n : Nat) : (Nonce.to_le_bytes n).length = 16 :=
  length_natToLeBytes 16 n

theorem nonce_from_to_le_bytes (n : Nat) :
    Nonce.from_le_bytes (Nonce.to_le_bytes n) = n % 2 ^ 128 := by
  have h : (256 : Nat) ^ 16 = 2 ^ 128 := by norm_num
  rw [Nonce.from_le_bytes, Nonce.to_le_bytes, leBytesToNat_natToLeBytes, h]

theorem nonce_from_to_mod96 (n : Nat) :
    Nonce.from_le_bytes (Nonce.to_le_bytes n) % 2 ^ 96 = n % 2 ^ 96 := by
  rw [nonce_from_to_le_bytes]
  exact Nat.mod_mod_of_dvd n ⟨2 ^ 32, by norm_num⟩

theorem uuid_to_bytes_injOn {r1 r2 : Nat} (h1 : r1 < 2 ^ 128) (h2 : r2 < 2 ^ 128)
    (h : Uuid.to_bytes r1 = Uuid.to_bytes r2) : r1 = r2 := by
  have hpow : (256 : Nat) ^ 16 = 2 ^ 128 := by norm_num
  have := congrArg leBytesToNat h
  rw [Uuid.to_bytes, Uuid.to_bytes, leBytesToNat_natToLeBytes, leBytesToNat_natToLeBytes,
    hpow, Nat.mod_eq_of_lt h1, Nat.mod_eq_of_lt h2] at this
  exact this

/-- Splitting a buffer with a 16-byte suffix at `length - 16` recovers the
two halves (the `split_off(len - Nonce::len())` idiom of `security.rs`). -/
theorem split_off_append (a b : Bytes) (hb : b.length = 16) :
    (a ++ b).drop ((a ++ b).length - 16) = b ∧
      (a ++ b).take ((a ++ b).length - 16) = a := by
  have hlen : (a ++ b).length - 16 = a.length := by
    simp [List.length_append, hb]
  rw [hlen]
  exact ⟨List.drop_left a b, List.take_left a b⟩


/-! ### A concrete instance of the ring contract

Used by the witness theorems to instantiate `RingModel` at concrete
inputs.  The cipher returns the plaintext followed by a 16-entry tag whose
head injectively encodes the associated data, so the authenticity contract
holds exactly (an idealisation of the overwhelming-probability guarantee of
AES-256-GCM). -/

/-- An injective encoding of a byte buffer into a natural number. -/
def encodeBytes : Bytes → Nat
  | [] => 0
  | b :: bs => Nat.pair b (encodeBytes bs) + 1

theorem encodeBytes_inj : ∀ (a b : Bytes), encodeBytes a = encodeBytes b → a = b := by
  intro a
  induction a with
  | nil =>
    intro b h
    cases b with
    | nil => rfl
    | cons y ys => simp [encodeBytes] at h
  | cons x xs ih =>
    intro b h
    cases b with
    | nil => simp [encodeBytes] at h
    | cons y ys =>
      simp only [encodeBytes, Nat.add_right_cancel_iff] at h
      obtain ⟨h1, h2⟩ := Nat.pair_eq_pair.mp h
      rw [h1, ih ys h2]

/-- The 16-entry authentication tag of the concrete model. -/
def tagOf (aad : Bytes) : Bytes := encodeBytes aad :: List.replicate 15 0

theorem length_tagOf (aad : Bytes) : (tagOf aad).length = 16 := by
  simp [tagOf]

theorem tagOf_inj (a b : Bytes) (h : tagOf a = tagOf b) : a = b := by
  simp only [tagOf, List.cons.injEq] at h
  exact encodeBytes_inj a b h.1

/-- Cipher of the concrete model: keep the buffer, append the tag. -/
def idealSeal (_key : Bytes) (_nonce : Nat) (aad pt : Bytes) : Bytes :=
  pt ++ tagOf aad

/-- Decryption of the concrete model: check the trailing tag against the
supplied associated data. -/
def idealOpen (_key : Bytes) (_nonce : Nat) (aad ct : Bytes) : Option Bytes :=
  if 16 ≤ ct.length ∧ ct.drop (ct.length - 16) = tagOf aad then
    some (ct.take (ct.length - 16))
  else none

/-- The concrete `RingModel` instance. -/
def idealRing : RingModel where
  gcm_seal := idealSeal
  gcm_open := idealOpen
  pbkdf2_hmac_sha512 := fun _ _ _ l => List.replicate l 0
  seal_length := by
    intro k n aad pt
    simp [idealSeal, tagOf]
  aopen_seal := by
    intro k n aad pt
    have h := split_off_append pt (tagOf aad) (length_tagOf aad)
    have hlen : (pt ++ tagOf aad).length = pt.length + 16 := by
      simp [List.length_append, length_tagOf]
    unfold idealOpen idealSeal
    rw [if_pos ⟨by omega, h.1⟩, h.2]
  aopen_aad_ne := by
    intro k n aad aad' pt hne
    have h := split_off_append pt (tagOf aad') (length_tagOf aad')
    unfold idealOpen idealSeal
    rw [if_neg]
    rintro ⟨-, hdrop⟩
    rw [h.1] at hdrop
    exact hne (tagOf_inj aad' aad hdrop).symm
  aopen_length := by
    intro k n aad ct pt h
    unfold idealOpen at h
    by_cases hc : 16 ≤ ct.length ∧ ct.drop (ct.length - 16) = tagOf aad
    · rw [if_pos hc] at h
      injection h with h'
      obtain ⟨hle, -⟩ := hc
      rw [← h', List.length_take]
      omega
    · rw [if_neg hc] at h
      cases h
  pbkdf2_length := by
    intro c s p l
    simp

/-! ### Split lemmas for the `split_off(len - Nonce::len())` idiom -/

/-- Opening a buffer of the form `body ++ nonce_bytes` with a `DataGuard`
holding a 32-byte key reduces to the AEAD open of `body` under the low 96
bits of the nonce value. -/
theorem dataGuard_open_split (M : RingModel) (g : DataGuard) (uuid nonce : Nat)
    (body : Bytes) (hk : g.key.length = 32) :
    DataGuard.open_in_place M g uuid (body ++ Nonce.to_le_bytes nonce) =
      match M.gcm_open g.key (nonce % 2 ^ 96) (Uuid.to_bytes uuid) body with
      | some pt => OpenResult.ok pt
      | none => OpenResult.err := by
  have hb : (Nonce.to_le_bytes nonce).length = 16 := length_nonce_to_le_bytes nonce
  have hsplit := split_off_append body (Nonce.to_le_bytes nonce) hb
  have hlen : (body ++ Nonce.to_le_bytes nonce).length = body.length + 16 := by
    simp [List.length_append, hb]
  unfold DataGuard.open_in_place
  rw [if_neg (by rw [hlen]; unfold Nonce.len; omega)]
  simp only [Nonce.len, hsplit.1, hsplit.2]
  unfold security.open_in_place unbound_key
  rw [if_pos hk, nonce_from_to_mod96]

/-- Decrypting a wrapped key of the form `body ++ nonce_bytes` with a
guard holding a 32-byte credential key reduces to the AEAD open of `body`
under the low 96 bits of the nonce value. -/
theorem try_decrypt_split (M : RingModel) (g : CredentialGuard) (nonce : Nat)
    (body : Bytes) (hk : g.credential_key.length = 32) :
    CredentialGuard.try_decrypt_key M g (body ++ Nonce.to_le_bytes nonce) =
      match M.gcm_open g.credential_key (nonce % 2 ^ 96) [] body with
      | some key => if key.length = 32 then DecryptResult.success ⟨g, key⟩ else DecryptResult.panic
      | none => DecryptResult.failure g := by
  have hb : (Nonce.to_le_bytes nonce).length = 16 := length_nonce_to_le_bytes nonce
  have hsplit := split_off_append body (Nonce.to_le_bytes nonce) hb
  have hlen : (body ++ Nonce.to_le_bytes nonce).length = body.length + 16 := by
    simp [List.length_append, hb]
  unfold CredentialGuard.try_decrypt_key
  rw [if_neg (by rw [hlen]; unfold Nonce.len; omega)]
  simp only [Nonce.len, hsplit.1, hsplit.2]
  unfold security.open_in_place unbound_key
  rw [if_pos hk, nonce_from_to_mod96]

/-! ### Claims -/

/-- Claim C1: for every data key, record identifier and plaintext, opening
a sealed record with the same guard and the same identifier returns
exactly the original plaintext. -/
theorem c1_seal_open_roundtrip (M : RingModel) (g : DataGuard) (uuid nonce : Nat)
    (plaintext : Bytes) (hk : g.key.length = 32) :
    (DataGuard.seal_in_place M g uuid nonce plaintext).map
        (DataGuard.open_in_place M g uuid) = some (OpenResult.ok plaintext) := by
  unfold DataGuard.seal_in_place security.seal_in_place unbound_key
  rw [if_pos hk]
  show some (DataGuard.open_in_place M g uuid
      (M.gcm_seal g.key (nonce % 2 ^ 96) (Uuid.to_bytes uuid) plaintext ++
        Nonce.to_le_bytes nonce)) = some (OpenResult.ok plaintext)
  rw [dataGuard_open_split M g uuid nonce _ hk, M.aopen_seal]

theorem c1_witness :
    (⟨⟨[], []⟩, List.replicate 32 0⟩ : DataGuard).key.length = 32 ∧
      (DataGuard.seal_in_place idealRing ⟨⟨[], []⟩, List.replicate 32 0⟩ 7 5 [1, 2, 3]).map
          (DataGuard.open_in_place idealRing ⟨⟨[], []⟩, List.replicate 32 0⟩ 7) =
        some (OpenResult.ok [1, 2, 3]) :=
  ⟨by decide,
    c1_seal_open_roundtrip idealRing ⟨⟨[], []⟩, List.replicate 32 0⟩ 7 5 [1, 2, 3] (by decide)⟩

/-- Claim C2: a record sealed under identifier `r1` fails to open under a
different identifier `r2` (the `Uuid` is bound as associated data), with
the unspecified error rather than any plaintext. -/
theorem c2_swapped_uuid_fails (M : RingModel) (g : DataGuard) (r1 r2 nonce : Nat)
    (plaintext : Bytes) (hk : g.key.length = 32) (h1 : r1 < 2 ^ 128) (h2 : r2 < 2 ^ 128)
    (hne : r1 ≠ r2) :
    (DataGuard.seal_in_place M g r1 nonce plaintext).map
        (DataGuard.open_in_place M g r2) = some OpenResult.err := by
  unfold DataGuard.seal_in_place security.seal_in_place unbound_key
  rw [if_pos hk]
  show some (DataGuard.open_in_place M g r2
      (M.gcm_seal g.key (nonce % 2 ^ 96) (Uuid.to_bytes r1) plaintext ++
        Nonce.to_le_bytes nonce)) = some OpenResult.err
  rw [dataGuard_open_split M g r2 nonce _ hk,
    M.aopen_aad_ne _ _ _ _ _ (fun hc => hne (uuid_to_bytes_injOn h2 h1 hc).symm)]

theorem c2_witness :
    (⟨⟨[], []⟩, List.replicate 32 0⟩ : DataGuard).key.length = 32 ∧ 0 < 2 ^ 128 ∧
      1 < 2 ^ 128 ∧ (0 : Nat) ≠ 1 ∧
      (DataGuard.seal_in_place idealRing ⟨⟨[], []⟩, List.replicate 32 0⟩ 0 5 [9, 9]).map
          (DataGuard.open_in_place idealRing ⟨⟨[], []⟩, List.replicate 32 0⟩ 1) =
        some OpenResult.err :=
  ⟨by decide, by decide, by decide, by decide,
    c2_swapped_uuid_fails idealRing ⟨⟨[], []⟩, List.replicate 32 0⟩ 0 1 5 [9, 9]
      (by decide) (by decide) (by decide) (by decide)⟩

/-- Claim C3: contrary to the claim, `DataGuard::open_in_place` is not
total: for every sealed-bytes input shorter than the 16-byte nonce the
subtraction `ciphertext.len() - Nonce::len()` underflows and the process
panics; no distinct malformed-input error is ever returned. -/
theorem c3_short_input_panics (M : RingModel) (g : DataGuard) (uuid : Nat)
    (ciphertext : Bytes) (hshort : ciphertext.length < Nonce.len) :
    DataGuard.open_in_place M g uuid ciphertext = OpenResult.panic := by
  unfold DataGuard.open_in_place
  rw [if_pos hshort]

theorem c3_witness :
    ([] : Bytes).length < Nonce.len ∧
      DataGuard.open_in_place idealRing ⟨⟨[], []⟩, []⟩ 0 [] = OpenResult.panic :=
  ⟨by decide, c3_short_input_panics idealRing ⟨⟨[], []⟩, []⟩ 0 [] (by decide)⟩

/-- Claim C4: when `try_decrypt_key` fails, the guard it returns is the
very guard it was called on (same salt, same credential key), and
`update_credentials` on the returned guard keeps the salt while replacing
only the credential key. -/
theorem c4_failure_returns_same_guard (M : RingModel) (g g' : CredentialGuard) (ek : Bytes)
    (username password : Bytes)
    (hfail : CredentialGuard.try_decrypt_key M g ek = DecryptResult.failure g') :
    g'.salt = g.salt ∧ g'.credential_key = g.credential_key ∧
      (CredentialGuard.update_credentials M g' username password).salt = g.salt ∧
      (CredentialGuard.update_credentials M g' username password).credential_key =
        derive_key_from_credentials M g.salt username password := by
  have hgg : g' = g := by
    unfold CredentialGuard.try_decrypt_key at hfail
    by_cases hs : ek.length < Nonce.len
    · rw [if_pos hs] at hfail
      cases hfail
    · rw [if_neg hs] at hfail
      rcases hopen : security.open_in_place M g.credential_key []
          (Nonce.from_le_bytes (ek.drop (ek.length - Nonce.len)))
          (ek.take (ek.length - Nonce.len)) with _ | key
      · rw [hopen] at hfail
        injection hfail with h
        exact h.symm
      · rw [hopen] at hfail
        dsimp only at hfail
        by_cases hk32 : key.length = 32
        · rw [if_pos hk32] at hfail
          cases hfail
        · rw [if_neg hk32] at hfail
          cases hfail
  subst hgg
  exact ⟨rfl, rfl, rfl, rfl⟩

theorem c4_witness :
    CredentialGuard.try_decrypt_key idealRing ⟨List.replicate 16 0, List.replicate 32 0⟩
        (List.replicate 16 0) =
      DecryptResult.failure ⟨List.replicate 16 0, List.replicate 32 0⟩ ∧
      ((⟨List.replicate 16 0, List.replicate 32 0⟩ : CredentialGuard).salt =
          (⟨List.replicate 16 0, List.replicate 32 0⟩ : CredentialGuard).salt ∧
        (⟨List.replicate 16 0, List.replicate 32 0⟩ : CredentialGuard).credential_key =
          (⟨List.replicate 16 0, List.replicate 32 0⟩ : CredentialGuard).credential_key ∧
        (CredentialGuard.update_credentials idealRing
            ⟨List.replicate 16 0, List.replicate 32 0⟩ [1] [2]).salt =
          (⟨List.replicate 16 0, List.replicate 32 0⟩ : CredentialGuard).salt ∧
        (CredentialGuard.update_credentials idealRing
            ⟨List.replicate 16 0, List.replicate 32 0⟩ [1] [2]).credential_key =
          derive_key_from_credentials idealRing
            (⟨List.replicate 16 0, List.replicate 32 0⟩ : CredentialGuard).salt [1] [2]) :=
  ⟨by decide,
    c4_failure_returns_same_guard idealRing ⟨List.replicate 16 0, List.replicate 32 0⟩
      ⟨List.replicate 16 0, List.replicate 32 0⟩ (List.replicate 16 0) [1] [2] (by decide)⟩

/-- Claim C5: the key-derivation function is the pure function of
(database salt, username, password) that concatenates the salt with the
username bytes, applies PBKDF2-HMAC-SHA512 with the fixed iteration count
100000 to the password, and returns a 32-byte key; `CredentialGuard::new`
stores exactly this key next to the salt. -/
theorem c5_kdf_structure (M : RingModel) (db_salt username password : Bytes) :
    derive_key_from_credentials M db_salt username password =
      M.pbkdf2_hmac_sha512 100000 (db_salt ++ username) password 32 ∧
      (derive_key_from_credentials M db_salt username password).length = 32 ∧
      CredentialGuard.new M db_salt username password =
        ⟨db_salt, derive_key_from_credentials M db_salt username password⟩ :=
  ⟨rfl, M.pbkdf2_length 100000 (db_salt ++ username) password 32, rfl⟩

/-- Claim C6: the wrapped key produced by `generate_encrypted_key` is
non-empty, and `try_decrypt_key` on a guard with the same salt and
credentials recovers a `DataGuard` holding exactly the generated 32-byte
data key. -/
theorem c6_wrap_unwrap (M : RingModel) (salt username password data_key : Bytes)
    (nonce : Nat) (ek : Bytes) (hdk : data_key.length = 32)
    (hek : CredentialGuard.generate_encrypted_key M
        (CredentialGuard.new M salt username password) data_key nonce = some ek) :
    ek ≠ [] ∧
      CredentialGuard.try_decrypt_key M (CredentialGuard.new M salt username password) ek =
        DecryptResult.success ⟨CredentialGuard.new M salt username password, data_key⟩ := by
  set g := CredentialGuard.new M salt username password with hg
  have hck : g.credential_key.length = 32 := M.pbkdf2_length _ _ _ _
  unfold CredentialGuard.generate_encrypted_key security.seal_in_place unbound_key at hek
  rw [if_pos hck] at hek
  dsimp only at hek
  injection hek with hek'
  subst hek'
  have hlen : (M.gcm_seal g.credential_key (nonce % 2 ^ 96) [] data_key ++
      Nonce.to_le_bytes nonce).length = data_key.length + 32 := by
    rw [List.length_append, M.seal_length, length_nonce_to_le_bytes]
  refine ⟨fun hemp => ?_, ?_⟩
  · rw [hemp] at hlen
    simp only [List.length_nil] at hlen
    omega
  · rw [try_decrypt_split M g nonce _ hck]
    simp [M.aopen_seal, hdk]

theorem c6_witness :
    (List.replicate 32 (0 : Nat)).length = 32 ∧
      CredentialGuard.generate_encrypted_key idealRing
          (CredentialGuard.new idealRing (List.replicate 16 0) [] [])
          (List.replicate 32 0) 0 =
        some (List.replicate 32 0 ++ tagOf [] ++ Nonce.to_le_bytes 0) ∧
      (List.replicate 32 0 ++ tagOf [] ++ Nonce.to_le_bytes 0 ≠ ([] : Bytes) ∧
        CredentialGuard.try_decrypt_key idealRing
            (CredentialGuard.new idealRing (List.replicate 16 0) [] [])
            (List.replicate 32 0 ++ tagOf [] ++ Nonce.to_le_bytes 0) =
          DecryptResult.success
            ⟨CredentialGuard.new idealRing (List.replicate 16 0) [] [],
              List.replicate 32 0⟩) :=
  ⟨by decide, by decide,
    c6_wrap_unwrap idealRing (List.replicate 16 0) [] [] (List.replicate 32 0) 0
      (List.replicate 32 0 ++ tagOf [] ++ Nonce.to_le_bytes 0) (by decide) (by decide)⟩

/-- Upper bound on the number of `try_decrypt_key` attempts made by the
validation loop: at most one per remaining iteration. -/
theorem validateFuel_count_le (M : RingModel) (ek : Bytes)
    (prompts : Nat → Bytes × Bytes) :
    ∀ (fuel : Nat) (g : CredentialGuard) (i : Nat),
      (validateFuel M ek prompts g i fuel).2 ≤ fuel := by
  intro fuel
  induction fuel with
  | zero =>
    intro g i
    simp [validateFuel]
  | succ fuel ih =>
    intro g i
    rcases h : CredentialGuard.try_decrypt_key M g ek with _ | g' | dg
    · simp [validateFuel, h]
    · by_cases hi : i = 2
      · simp [validateFuel, h, hi]
      · simp only [validateFuel, h, hi]
        have := ih (CredentialGuard.update_credentials M g' (prompts i).1 (prompts i).2) (i + 1)
        simp only [ne_eq, not_false_eq_true, if_true, hi]
        omega
    · simp [validateFuel, h]

/-- Claim C7: the validation loop of `get_and_validate_credentials` makes
at most 3 `try_decrypt_key` attempts, re-prompting and updating the
credentials between failed attempts, and when all three attempts fail it
produces the fatal invalid-credentials outcome after exactly 3 attempts. -/
theorem c7_bounded_retries (M M' : RingModel) (ek ek' : Bytes)
    (prompts prompts' : Nat → Bytes × Bytes) (g0 g1 g2 h0 : CredentialGuard)
    (hf0 : CredentialGuard.try_decrypt_key M g0 ek = DecryptResult.failure g0)
    (hu1 : g1 = CredentialGuard.update_credentials M g0 (prompts 0).1 (prompts 0).2)
    (hf1 : CredentialGuard.try_decrypt_key M g1 ek = DecryptResult.failure g1)
    (hu2 : g2 = CredentialGuard.update_credentials M g1 (prompts 1).1 (prompts 1).2)
    (hf2 : CredentialGuard.try_decrypt_key M g2 ek = DecryptResult.failure g2) :
    (get_and_validate_loop M ek prompts g0).1 = ValidateResult.failed ∧
      (get_and_validate_loop M ek prompts g0).2 = 3 ∧
      (get_and_validate_loop M' ek' prompts' h0).2 ≤ 3 := by
  subst hu1
  subst hu2
  refine ⟨?_, ?_, validateFuel_count_le M' ek' prompts' 3 h0 0⟩
  · simp [get_and_validate_loop, validateFuel, hf0, hf1, hf2]
  · simp [get_and_validate_loop, validateFuel, hf0, hf1, hf2]

/-- Fixed prompt stream used by the witnesses. -/
def wPrompts : Nat → Bytes × Bytes := fun _ => ([], [])

theorem c7_witness :
    CredentialGuard.try_decrypt_key idealRing ⟨List.replicate 16 0, List.replicate 32 0⟩
        (List.replicate 16 0) =
      DecryptResult.failure ⟨List.replicate 16 0, List.replicate 32 0⟩ ∧
      (⟨List.replicate 16 0, List.replicate 32 0⟩ : CredentialGuard) =
        CredentialGuard.update_credentials idealRing
          ⟨List.replicate 16 0, List.replicate 32 0⟩ (wPrompts 0).1 (wPrompts 0).2 ∧
      ((get_and_validate_loop idealRing (List.replicate 16 0) wPrompts
            ⟨List.replicate 16 0, List.replicate 32 0⟩).1 = ValidateResult.failed ∧
        (get_and_validate_loop idealRing (List.replicate 16 0) wPrompts
            ⟨List.replicate 16 0, List.replicate 32 0⟩).2 = 3 ∧
        (get_and_validate_loop idealRing (List.replicate 16 0) wPrompts
            ⟨List.replicate 16 0, List.replicate 32 0⟩).2 ≤ 3) :=
  ⟨by decide, by decide,
    c7_bounded_retries idealRing idealRing (List.replicate 16 0) (List.replicate 16 0)
      wPrompts wPrompts ⟨List.replicate 16 0, List.replicate 32 0⟩
      ⟨List.replicate 16 0, List.replicate 32 0⟩ ⟨List.replicate 16 0, List.replicate 32 0⟩
      ⟨List.replicate 16 0, List.replicate 32 0⟩
      (by decide) (by decide) (by decide) (by decide) (by decide)⟩

/-- Claim C8: the verification protocol generates and persists a new
wrapped data key exactly when the stored wrapped key is empty or absent;
a non-empty stored wrapped key is passed through untouched and never
rewritten. -/
theorem c8_provision_iff (M : RingModel) (stored : Option Bytes) (g : CredentialGuard)
    (data_key : Bytes) (nonce : Nat) (out : ProvisionOutcome)
    (hout : provision_key M stored g data_key nonce = some out) :
    (out.generated = true ↔ stored = none ∨ stored = some []) ∧
      (out.generated = true → out.written = some out.encrypted_key) ∧
      (out.generated = false →
        out.written = none ∧ stored = some out.encrypted_key ∧ out.encrypted_key ≠ []) := by
  unfold provision_key at hout
  by_cases he : (stored.getD []).isEmpty
  · rw [if_pos he] at hout
    have hstored : stored = none ∨ stored = some [] := by
      rcases stored with _ | s
      · exact Or.inl rfl
      · right
        cases s with
        | nil => rfl
        | cons b bs => simp [Option.getD, List.isEmpty] at he
    rcases hgen : CredentialGuard.generate_encrypted_key M g data_key nonce with _ | ek
    · rw [hgen] at hout
      cases hout
    · rw [hgen] at hout
      dsimp only at hout
      injection hout with hout'
      subst hout'
      refine ⟨by simp [hstored], fun _ => rfl, fun habs => ?_⟩
      cases habs
  · rw [if_neg he] at hout
    injection hout with hout'
    subst hout'
    have hsome : stored = some (stored.getD []) ∧ stored.getD [] ≠ [] := by
      rcases stored with _ | s
      · simp [Option.getD, List.isEmpty] at he
      · refine ⟨rfl, fun habs => ?_⟩
        rw [Option.getD] at habs
        subst habs
        simp [List.isEmpty] at he
    refine ⟨?_, ?_, ?_⟩
    · constructor
      · intro habs
        cases habs
      · intro hor
        exfalso
        rcases hor with h | h <;> rw [h] at he <;> simp [Option.getD, List.isEmpty] at he
    · intro habs
      cases habs
    · intro _
      exact ⟨rfl, hsome.1, hsome.2⟩

theorem c8_witness :
    provision_key idealRing (some [5]) ⟨[], []⟩ [] 0 = some ⟨[5], false, none⟩ ∧
      (((⟨[5], false, none⟩ : ProvisionOutcome).generated = true ↔
          (some [5] : Option Bytes) = none ∨ (some [5] : Option Bytes) = some []) ∧
        ((⟨[5], false, none⟩ : ProvisionOutcome).generated = true →
          (⟨[5], false, none⟩ : ProvisionOutcome).written =
            some (⟨[5], false, none⟩ : ProvisionOutcome).encrypted_key) ∧
        ((⟨[5], false, none⟩ : ProvisionOutcome).generated = false →
          (⟨[5], false, none⟩ : ProvisionOutcome).written = none ∧
            (some [5] : Option Bytes) =
              some (⟨[5], false, none⟩ : ProvisionOutcome).encrypted_key ∧
            (⟨[5], false, none⟩ : ProvisionOutcome).encrypted_key ≠ [])) :=
  ⟨by decide, c8_provision_iff idealRing (some [5]) ⟨[], []⟩ [] 0 ⟨[5], false, none⟩ (by decide)⟩

/-- Claim C9: a sealed record is laid out as
ciphertext-plus-16-byte-tag followed by the 16-byte little-endian nonce,
for a total length of `plaintext.length + 32`; a wrapped key produced by
`generate_encrypted_key` has the same layout with empty associated data. -/
theorem c9_wire_format (M : RingModel) (g : DataGuard) (uuid nonce : Nat) (plaintext : Bytes)
    (g' : CredentialGuard) (data_key : Bytes) (nonce' : Nat)
    (hk : g.key.length = 32) (hk' : g'.credential_key.length = 32) :
    DataGuard.seal_in_place M g uuid nonce plaintext =
      some (M.gcm_seal g.key (nonce % 2 ^ 96) (Uuid.to_bytes uuid) plaintext ++
        Nonce.to_le_bytes nonce) ∧
      (M.gcm_seal g.key (nonce % 2 ^ 96) (Uuid.to_bytes uuid) plaintext ++
        Nonce.to_le_bytes nonce).length = plaintext.length + 32 ∧
      (M.gcm_seal g.key (nonce % 2 ^ 96) (Uuid.to_bytes uuid) plaintext ++
        Nonce.to_le_bytes nonce).drop (plaintext.length + 16) = Nonce.to_le_bytes nonce ∧
      ((M.gcm_seal g.key (nonce % 2 ^ 96) (Uuid.to_bytes uuid) plaintext).drop
        plaintext.length).length = 16 ∧
      CredentialGuard.generate_encrypted_key M g' data_key nonce' =
        some (M.gcm_seal g'.credential_key (nonce' % 2 ^ 96) [] data_key ++
          Nonce.to_le_bytes nonce') ∧
      (M.gcm_seal g'.credential_key (nonce' % 2 ^ 96) [] data_key ++
        Nonce.to_le_bytes nonce').length = data_key.length + 32 := by
  refine ⟨?_, ?_, ?_, ?_, ?_, ?_⟩
  · unfold DataGuard.seal_in_place security.seal_in_place unbound_key
    rw [if_pos hk]
  · rw [List.length_append, M.seal_length, length_nonce_to_le_bytes]
  · have h := split_off_append
      (M.gcm_seal g.key (nonce % 2 ^ 96) (Uuid.to_bytes uuid) plaintext)
      (Nonce.to_le_bytes nonce) (length_nonce_to_le_bytes nonce)
    rw [List.length_append, M.seal_length, length_nonce_to_le_bytes,
      Nat.add_sub_cancel] at h
    exact h.1
  · rw [List.length_drop, M.seal_length]
    omega
  · unfold CredentialGuard.generate_encrypted_key security.seal_in_place unbound_key
    rw [if_pos hk']
  · rw [List.length_append, M.seal_length, length_nonce_to_le_bytes]

theorem c9_witness :
    (⟨⟨[], []⟩, List.replicate 32 0⟩ : DataGuard).key.length = 32 ∧
      (⟨[], List.replicate 32 0⟩ : CredentialGuard).credential_key.length = 32 ∧
      (DataGuard.seal_in_place idealRing ⟨⟨[], []⟩, List.replicate 32 0⟩ 3 4 [8, 8, 8] =
        some (idealRing.gcm_seal (List.replicate 32 0) (4 % 2 ^ 96) (Uuid.to_bytes 3)
          [8, 8, 8] ++ Nonce.to_le_bytes 4) ∧
        (idealRing.gcm_seal (List.replicate 32 0) (4 % 2 ^ 96) (Uuid.to_bytes 3)
          [8, 8, 8] ++ Nonce.to_le_bytes 4).length = ([8, 8, 8] : Bytes).length + 32 ∧
        (idealRing.gcm_seal (List.replicate 32 0) (4 % 2 ^ 96) (Uuid.to_bytes 3)
          [8, 8, 8] ++ Nonce.to_le_bytes 4).drop (([8, 8, 8] : Bytes).length + 16) =
          Nonce.to_le_bytes 4 ∧
        ((idealRing.gcm_seal (List.replicate 32 0) (4 % 2 ^ 96) (Uuid.to_bytes 3)
          [8, 8, 8]).drop ([8, 8, 8] : Bytes).length).length = 16 ∧
        CredentialGuard.generate_encrypted_key idealRing ⟨[], List.replicate 32 0⟩ [6] 9 =
          some (idealRing.gcm_seal (List.replicate 32 0) (9 % 2 ^ 96) [] [6] ++
            Nonce.to_le_bytes 9) ∧
        (idealRing.gcm_seal (List.replicate 32 0) (9 % 2 ^ 96) [] [6] ++
          Nonce.to_le_bytes 9).length = ([6] : Bytes).length + 32) :=
  ⟨by decide, by decide,
    c9_wire_format idealRing ⟨⟨[], []⟩, List.replicate 32 0⟩ 3 4 [8, 8, 8]
      ⟨[], List.replicate 32 0⟩ [6] 9 (by decide) (by decide)⟩

/-- Claim C10: `try_decrypt_key` panics on any input shorter than the
16-byte nonce (the split underflows), while on a wrapped key produced by
`generate_encrypted_key` from a 32-byte data key neither the split nor the
success-branch 32-byte conversion panics. -/
theorem c10_try_decrypt_partiality (M : RingModel) (g : CredentialGuard)
    (short_key : Bytes) (hshort : short_key.length < Nonce.len)
    (salt username password data_key : Bytes) (nonce : Nat) (ek : Bytes)
    (hdk : data_key.length = 32)
    (hek : CredentialGuard.generate_encrypted_key M
        (CredentialGuard.new M salt username password) data_key nonce = some ek) :
    CredentialGuard.try_decrypt_key M g short_key = DecryptResult.panic ∧
      CredentialGuard.try_decrypt_key M (CredentialGuard.new M salt username password) ek ≠
        DecryptResult.panic := by
  constructor
  · unfold CredentialGuard.try_decrypt_key
    rw [if_pos hshort]
  · set g0 := CredentialGuard.new M salt username password with hg0
    have hck : g0.credential_key.length = 32 := M.pbkdf2_length _ _ _ _
    unfold CredentialGuard.generate_encrypted_key security.seal_in_place unbound_key at hek
    rw [if_pos hck] at hek
    dsimp only at hek
    injection hek with hek'
    subst hek'
    rw [try_decrypt_split M g0 nonce _ hck]
    simp [M.aopen_seal, hdk]

theorem c10_witness :
    ([] : Bytes).length < Nonce.len ∧ (List.replicate 32 (0 : Nat)).length = 32 ∧
      CredentialGuard.generate_encrypted_key idealRing
          (CredentialGuard.new idealRing (List.replicate 16 0) [3] [4])
          (List.replicate 32 0) 1 =
        some (List.replicate 32 0 ++ tagOf [] ++ Nonce.to_le_bytes 1) ∧
      (CredentialGuard.try_decrypt_key idealRing ⟨[], []⟩ [] = DecryptResult.panic ∧
        CredentialGuard.try_decrypt_key idealRing
            (CredentialGuard.new idealRing (List.replicate 16 0) [3] [4])
            (List.replicate 32 0 ++ tagOf [] ++ Nonce.to_le_bytes 1) ≠
          DecryptResult.panic) :=
  ⟨by decide, by decide, by decide,
    c10_try_decrypt_partiality idealRing ⟨[], []⟩ [] (by decide)
      (List.replicate 16 0) [3] [4] (List.replicate 32 0) 1
      (List.replicate 32 0 ++ tagOf [] ++ Nonce.to_le_bytes 1) (by decide) (by decide)⟩
